import Mathlib

/-!
Shallow embedding of the per-shard query dispatch and result-merging core of
`src/rdb_protocol/protocol.cc` (read/write sharding, unsharding, cpu sharding
subspaces), together with theorems settling the specification claims.

Machine integers: key bytes and hash values are modelled as `Nat`; the signed
64-bit accumulators of the distribution merge are modelled as `Int` (the code
uses `int64_t`, far from overflow for the quantities involved).
-/

/-- A store key (`store_key_t`): a byte string, ordered lexicographically. -/
abbrev Key := List Nat

/-- An opaque JSON document (`boost::shared_ptr<scoped_cJSON_t>`); the merging
code never inspects document contents, so the payload is a bare number. -/
abbrev Value := Nat

/-- The default-constructed atom (`atom_t()`, a null shared pointer). -/
def atomDefault : Value := 0

/-- `query_language::runtime_exc_t`: message plus backtrace. -/
structure RuntimeExc where
  message : String
  backtrace : List String
deriving DecidableEq, Repr

/-- Modelled from the spec: `key_range_t` is defined in a header that is not
part of the shown source.  The shown code reads only its `left` bound and the
value of `last_key_in_range()` ("the range's upper bound"), so the range is
represented by exactly those two keys. -/
structure KeyRange where
  left : Key
  last_key_in_range : Key
deriving DecidableEq, Repr

/-- Modelled from the spec: `key_range_t(closed, k, closed, k)` — the range
holding exactly the key `k`. -/
def KeyRange.monokey (k : Key) : KeyRange := ⟨k, k⟩

/-- Modelled from the spec: `key_range_t::universe()` — all keys; the largest
key is the maximum-length key of maximal bytes. -/
def KeyRange.universe : KeyRange := ⟨[], List.replicate 250 255⟩

/-- `region_t = hash_region_t<key_range_t>`: hash interval `[beg, end_)`
paired with a key range. -/
structure Region where
  beg : Nat
  end_ : Nat
  inner : KeyRange
deriving DecidableEq, Repr

/-- Membership of a hash value in a region's hash interval. -/
def Region.memHash (r : Region) (h : Nat) : Prop := r.beg ≤ h ∧ h < r.end_

instance (r : Region) (h : Nat) : Decidable (r.memHash h) := by
  unfold Region.memHash; infer_instance

/-- Modelled from the spec: `HASH_REGION_HASH_SIZE` lives in a header outside
the shown source; the spec bounds hash intervals by `2^HASH_BITS` and the code
stores hashes in `uint64_t`, so the size is taken as `2^63`.  No claim below
depends on the numeric value. -/
def HASH_REGION_HASH_SIZE : Nat := 2 ^ 63

/-- Modelled from the spec: the constructor `region_t(key_range)` used by
`r_get_region_visitor` lifts a key range to the region spanning the full hash
universe. -/
def regionOfKeyRange (kr : KeyRange) : Region := ⟨0, HASH_REGION_HASH_SIZE, kr⟩

/-- `rdb_protocol_t::monokey_region`: the region containing only key `k`.
`hash_region_hasher` is external code, so it is passed in as a parameter. -/
def monokey_region (hasher : Key → Nat) (k : Key) : Region :=
  ⟨hasher k, hasher k + 1, KeyRange.monokey k⟩

/-- `rdb_protocol_t::cpu_sharding_subspace` (protocol.cc lines 985-996). -/
def cpu_sharding_subspace (subregion_number num_cpu_shards : Nat) : Region :=
  let width := HASH_REGION_HASH_SIZE / num_cpu_shards
  let beg := width * subregion_number
  let end_ := if subregion_number + 1 = num_cpu_shards
              then HASH_REGION_HASH_SIZE else beg + width
  ⟨beg, end_, KeyRange.universe⟩

/-- An opaque query-language term (`Term` protobuf); the merging code only
hands terms to the external evaluator. -/
abbrev Term := Nat

/-- A lexical scope: bindings pushed by `put_in_scope`, innermost first. -/
abbrev Scopes := List (String × Value)

/-- The external entry point `query_language::eval(term, env, backtrace)`;
it may throw a `runtime_exc_t`. -/
abbrev Evaluator := Term → Scopes → Except RuntimeExc Value

/-- A `Reduction` protobuf: `var1`, `var2`, `base`, `body`. -/
structure Reduction where
  var1 : String
  var2 : String
  base : Term
  body : Term
deriving DecidableEq, Repr

/-- A `Builtin_GroupedMapReduce` protobuf; the unshard code only reads its
`reduction()` field. -/
structure GroupedMapReduce where
  group_mapping : Term
  value_mapping : Term
  reduction : Reduction
deriving DecidableEq, Repr

/-- The terminal of a range read (`rget_read_t::terminal`'s variants). -/
inductive Terminal where
  | groupedMapReduce (gmr : GroupedMapReduce)
  | reduction (r : Reduction)
  | length
  | forEach
deriving DecidableEq, Repr

/-- `point_read_t`. -/
structure PointRead where
  key : Key
deriving DecidableEq, Repr

/-- `rget_read_t` (the fields the shown code reads). -/
structure RgetRead where
  key_range : KeyRange
  maximum : Nat
  transform : List Term
  terminal : Option Terminal
  scopes : Scopes
deriving DecidableEq, Repr

/-- `distribution_read_t`. -/
structure DistributionRead where
  max_depth : Nat
  range : KeyRange
deriving DecidableEq, Repr

/-- `read_t`: the tagged union of the three read variants. -/
inductive Read where
  | point (pr : PointRead)
  | rget (rg : RgetRead)
  | distribution (dg : DistributionRead)
deriving DecidableEq, Repr

/-- `read_t::get_region` via `r_get_region_visitor` (protocol.cc 115-134). -/
def read_get_region (hasher : Key → Nat) : Read → Region
  | .point pr => monokey_region hasher pr.key
  | .rget rg => regionOfKeyRange rg.key_range
  | .distribution dg => regionOfKeyRange dg.range

/-- `read_t::shard` via `r_shard_visitor` (protocol.cc 140-174): point reads
are returned unchanged; range and distribution reads have their range replaced
by the region's inner key range.  The `rassert` preconditions are debug-only
and do not affect the returned value. -/
def read_shard : Read → Region → Read
  | .point pr, _ => .point pr
  | .rget rg, region => .rget { rg with key_range := region.inner }
  | .distribution dg, region => .distribution { dg with range := region.inner }

/-- `point_read_response_t`: the stored document, if present. -/
structure PointReadResponse where
  data : Option Value
deriving DecidableEq, Repr

/-- `rget_read_response_t::stream_t`: ordered `(key, document)` pairs. -/
abbrev stream_t := List (Key × Value)

/-- `rget_read_response_t::groups_t`: ordered map from grouping key
(an opaque JSON document) to aggregated value. -/
abbrev groups_t := List (Value × Value)

/-- `rget_read_response_t::result_t`: the tagged union of range-read result
variants (`stream_t`, `groups_t`, `atom_t`, `length_t`, `inserted_t`,
`runtime_exc_t`). -/
inductive RgetResult where
  | stream (s : stream_t)
  | groups (g : groups_t)
  | atom (a : Value)
  | length (n : Int)
  | inserted (n : Int)
  | runtimeError (e : RuntimeExc)
deriving DecidableEq, Repr

/-- `boost::get<stream_t>` on a `result_t`: null (here `none`) unless the
stream variant is held. -/
def getStream : RgetResult → Option stream_t
  | .stream s => some s
  | _ => none

/-- `boost::get<groups_t>` on a `result_t`. -/
def getGroups : RgetResult → Option groups_t
  | .groups g => some g
  | _ => none

/-- `boost::get<atom_t>` on a `result_t`. -/
def getAtom : RgetResult → Option Value
  | .atom a => some a
  | _ => none

/-- `boost::get<length_t>` on a `result_t`. -/
def getLength : RgetResult → Option Int
  | .length n => some n
  | _ => none

/-- `boost::get<inserted_t>` on a `result_t`. -/
def getInserted : RgetResult → Option Int
  | .inserted n => some n
  | _ => none

/-- `boost::get<runtime_exc_t>` on a `result_t`. -/
def getError : RgetResult → Option RuntimeExc
  | .runtimeError e => some e
  | _ => none

/-- `rget_read_response_t`. -/
structure RgetReadResponse where
  result : RgetResult
  truncated : Bool
  key_range : KeyRange
  last_considered_key : Key
deriving DecidableEq, Repr

/-- `distribution_read_response_t::key_counts`: ordered map from key to count
(`std::map<store_key_t, int>`; counts accumulate into `int64_t`). -/
abbrev KeyCounts := List (Key × Int)

/-- `distribution_read_response_t`. -/
structure DistributionReadResponse where
  key_counts : KeyCounts
deriving DecidableEq, Repr

/-- `read_response_t`: the tagged union of the three response variants. -/
inductive ReadResponse where
  | point (p : PointReadResponse)
  | rget (r : RgetReadResponse)
  | distribution (d : DistributionReadResponse)
deriving DecidableEq, Repr

/-- `boost::get<rget_read_response_t>` on a `read_response_t`; a piece of the
wrong variant makes the visitors dereference null, which the embedding reports
as `none`. -/
def asRget : ReadResponse → Option RgetReadResponse
  | .rget r => some r
  | _ => none

/-- `boost::get<distribution_read_response_t>` on a `read_response_t`. -/
def asDistribution : ReadResponse → Option DistributionReadResponse
  | .distribution d => some d
  | _ => none

/-! ### Unshard machinery shared by both visitors

The error-scan loop and the four terminal branches are textually identical in
`unshard_visitor_t` and `multistore_unshard_visitor_t` (protocol.cc 217-318
and 400-552), so they are defined once and used by both. -/

/-- The error-scan loop: walk the responses in order, extracting each piece as
an rget response, and stop at the first `runtime_exc_t` result (the code
throws it, to be caught by the surrounding handler).  The outer `Option` is a
crash (wrong response variant); the inner `Option` is the error found. -/
def scanForError : List ReadResponse → Option (Option RuntimeExc)
  | [] => some none
  | r :: rest =>
    match asRget r with
    | none => none
    | some p =>
      match getError p.result with
      | some e => some (some e)
      | none => scanForError rest

/-- The single-store vanilla-range-get loop (protocol.cc 231-245): concatenate
the streams, OR the truncated flags, and take the running maximum of the
per-piece `last_considered_key`s. -/
def mergeConcat : List ReadResponse → stream_t → Bool → Key →
    Option (stream_t × Bool × Key)
  | [], s, t, k => some (s, t, k)
  | r :: rest, s, t, k => do
    let p ← asRget r
    let st ← getStream p.result
    mergeConcat rest (s ++ st) (t || p.truncated)
      (if k < p.last_considered_key then p.last_considered_key else k)

/-- The multistore last-considered-key loop (protocol.cc 446-459): a piece
lowers the running value exactly when its stream size equals the request's
`maximum`. -/
def mergeLck (maximum : Nat) : List ReadResponse → Key → Option Key
  | [], acc => some acc
  | r :: rest, acc => do
    let p ← asRget r
    let s ← getStream p.result
    mergeLck maximum rest
      (if s.length = maximum then
        (if p.last_considered_key < acc then p.last_considered_key else acc)
       else acc)

/-- The multistore emit loop (protocol.cc 461-479): append each piece's
stream filtered to keys at most the merged last-considered key, and OR the
truncated flags. -/
def mergeTrimmedStream (lck : Key) : List ReadResponse → stream_t → Bool →
    Option (stream_t × Bool)
  | [], s, t => some (s, t)
  | r :: rest, s, t => do
    let p ← asRget r
    let st ← getStream p.result
    mergeTrimmedStream lck rest
      (s ++ st.filter (fun kv => decide (kv.1 ≤ lck))) (t || p.truncated)

/-- The Length-terminal summation loop (protocol.cc 295-302 / 529-536). -/
def lengthSum : List ReadResponse → Int → Option Int
  | [], acc => some acc
  | r :: rest, acc => do
    let p ← asRget r
    let n ← getLength p.result
    lengthSum rest (acc + n)

/-- The ForEach-terminal summation loop (protocol.cc 308-315 / 542-549). -/
def insertedSum : List ReadResponse → Int → Option Int
  | [], acc => some acc
  | r :: rest, acc => do
    let p ← asRget r
    let n ← getInserted p.result
    insertedSum rest (acc + n)

/-- `get_with_default(m, k, d)` on an ordered map. -/
def getWithDefault (m : groups_t) (k : Value) (d : Value) : Value :=
  match m.find? (fun kv => decide (kv.1 = k)) with
  | some kv => kv.2
  | none => d

/-- `(*res_groups)[k] = v` on an ordered map: insert or overwrite, keeping the
keys sorted as `std::map` does. -/
def mapSet : groups_t → Value → Value → groups_t
  | [], k, v => [(k, v)]
  | (k0, v0) :: rest, k, v =>
    if k < k0 then (k, v) :: (k0, v0) :: rest
    else if k = k0 then (k, v) :: rest
    else (k0, v0) :: mapSet rest k v

/-- The per-group inner loop of the GroupedMapReduce branch (protocol.cc
257-266 / 491-500): for every group, evaluate the reduction base (always, as
the call-by-value argument of `get_with_default`), then the body under a
fresh scope binding `var1` to the accumulated value and `var2` to the group's
value. -/
def gmrGroups (ev : Evaluator) (gmr : GroupedMapReduce) (scopes : Scopes) :
    groups_t → groups_t → Except RuntimeExc groups_t
  | [], acc => .ok acc
  | (k, v) :: rest, acc => do
    let b ← ev gmr.reduction.base scopes
    let cur := getWithDefault acc k b
    let res ← ev gmr.reduction.body
      ((gmr.reduction.var2, v) :: (gmr.reduction.var1, cur) :: scopes)
    gmrGroups ev gmr scopes rest (mapSet acc k res)

/-- The GroupedMapReduce outer loop over pieces (protocol.cc 250-267 /
484-501). -/
def gmrLoop (ev : Evaluator) (gmr : GroupedMapReduce) (scopes : Scopes) :
    List ReadResponse → groups_t → Option (Except RuntimeExc groups_t)
  | [], acc => some (.ok acc)
  | r :: rest, acc =>
    match asRget r with
    | none => none
    | some p =>
      match getGroups p.result with
      | none => none
      | some gs =>
        match gmrGroups ev gmr scopes gs acc with
        | .error e => some (.error e)
        | .ok acc2 => gmrLoop ev gmr scopes rest acc2

/-- The Reduction fold over pieces (protocol.cc 278-289 / 512-523): each step
extracts the piece's atom and evaluates the body with `var1` bound to the
accumulator and `var2` to the atom. -/
def reduceLoop (ev : Evaluator) (red : Reduction) (scopes : Scopes) :
    List ReadResponse → Value → Option (Except RuntimeExc Value)
  | [], acc => some (.ok acc)
  | r :: rest, acc =>
    match asRget r with
    | none => none
    | some p =>
      match getAtom p.result with
      | none => none
      | some a =>
        match ev red.body ((red.var2, a) :: (red.var1, acc) :: scopes) with
        | .error e => some (.error e)
        | .ok acc2 => reduceLoop ev red scopes rest acc2

/-- The four terminal branches, common to both visitors (protocol.cc 246-318
and 480-552).  The outer `Option` is a crash; the `Except` layer carries a
thrown `runtime_exc_t` to the surrounding catch.

Note the Length and ForEach branches: the code stores `atom_t()` into the
result and then fetches it back via `boost::get<length_t>` (respectively
`boost::get<inserted_t>`), which yields a null pointer that is immediately
written through.  The embedding renders that null fetch as the failing
extraction of the just-stored atom. -/
def mergeTerminal (ev : Evaluator) (scopes : Scopes) (term : Terminal)
    (rs : List ReadResponse) : Option (Except RuntimeExc RgetResult) :=
  match term with
  | .groupedMapReduce gmr =>
    match gmrLoop ev gmr scopes rs [] with
    | none => none
    | some (.error e) => some (.error e)
    | some (.ok gs) => some (.ok (.groups gs))
  | .reduction red =>
    match ev red.base scopes with
    | .error e => some (.error e)
    | .ok base =>
      match reduceLoop ev red scopes rs base with
      | none => none
      | some (.error e) => some (.error e)
      | some (.ok acc) => some (.ok (.atom acc))
  | .length => do
    let _ ← getLength (RgetResult.atom atomDefault)
    let total ← lengthSum rs 0
    pure (.ok (.length total))
  | .forEach => do
    let _ ← getInserted (RgetResult.atom atomDefault)
    let total ← insertedSum rs 0
    pure (.ok (.inserted total))

/-- Build the response the visitors fill in: `key_range` is the request's
range and `truncated` / `last_considered_key` are whatever the chosen branch
left there. -/
def mkResp (rg : RgetRead) (res : RgetResult) (t : Bool) (k : Key) :
    RgetReadResponse :=
  ⟨res, t, rg.key_range, k⟩

/-- `unshard_visitor_t::operator()(const rget_read_t &)` (protocol.cc
208-323): single-store merge of range-read responses. -/
def unshard_visitor_rget (ev : Evaluator) (rg : RgetRead)
    (rs : List ReadResponse) : Option RgetReadResponse := do
  match ← scanForError rs with
  | some e => pure (mkResp rg (.runtimeError e) false rg.key_range.left)
  | none =>
    match rg.terminal with
    | none => do
      let (s, t, k) ← mergeConcat rs [] false rg.key_range.left
      pure (mkResp rg (.stream s) t k)
    | some term =>
      match ← mergeTerminal ev rg.scopes term rs with
      | .ok res => pure (mkResp rg res false rg.key_range.left)
      | .error e => pure (mkResp rg (.runtimeError e) false rg.key_range.left)

/-- Both visitors' `operator()(const point_read_t &)` (protocol.cc 202-206 and
385-389): return the first response unchanged.  The size-1 and variant
`rassert`s are debug-only; indexing an empty vector is the crash `none`. -/
def unshard_visitor_point (rs : List ReadResponse) : Option ReadResponse :=
  rs.head?

/-- Insert one `(key, count)` entry into an ordered map the way
`std::map::insert` does: keep an existing entry for the same key. -/
def mapInsertKeep : KeyCounts → Key → Int → KeyCounts
  | [], k, v => [(k, v)]
  | (k0, v0) :: rest, k, v =>
    if k < k0 then (k, v) :: (k0, v0) :: rest
    else if k = k0 then (k0, v0) :: rest
    else (k0, v0) :: mapInsertKeep rest k v

/-- `response->key_counts.insert(piece.begin(), piece.end())`: range insert,
skipping keys already present. -/
def mapInsertAll (m : KeyCounts) (adds : KeyCounts) : KeyCounts :=
  adds.foldl (fun acc kv => mapInsertKeep acc kv.1 kv.2) m

/-- Extract every piece as a `distribution_read_response_t`, in loop order;
a piece of the wrong variant is the crashing null dereference `none`. -/
def extractDistributions : List ReadResponse →
    Option (List DistributionReadResponse)
  | [] => some []
  | r :: rest => do
    let p ← asDistribution r
    let ps ← extractDistributions rest
    pure (p :: ps)

/-- `unshard_visitor_t::operator()(const distribution_read_t &)` (protocol.cc
325-352): concatenate the pieces' `key_counts` maps (the key sets are disjoint
across key-range shards; the debug asserts are no-ops in release). -/
def unshard_visitor_distribution (rs : List ReadResponse) :
    Option DistributionReadResponse := do
  let ps ← extractDistributions rs
  pure ⟨ps.foldl (fun acc p => mapInsertAll acc p.key_counts) []⟩

/-- `Σ counts` of a `key_counts` map (the `tmp_total_keys` inner loop). -/
def sumCounts (m : KeyCounts) : Int := m.foldl (fun a kv => a + kv.2) 0

/-- One iteration of the multistore distribution loop (protocol.cc 574-591),
on the state `(total_num_keys, selected response, total_keys_in_res)`: add the
piece's count sum to the running total, and make the piece the selected
response when its `key_counts` is strictly larger than the current one's. -/
def distScanStep (st : Int × DistributionReadResponse × Int)
    (p : DistributionReadResponse) : Int × DistributionReadResponse × Int :=
  let tmp := sumCounts p.key_counts
  let total := st.1 + tmp
  if st.2.1.key_counts.length < p.key_counts.length
  then (total, p, tmp) else (total, st.2.1, st.2.2)

/-- `multistore_unshard_visitor_t::operator()(const distribution_read_t &)`
(protocol.cc 558-606).  The `double` multiply-and-cast
`static_cast<int>(count * total_num_keys / total_keys_in_res)` is modelled as
exact rational multiplication truncated toward zero. -/
def multistore_unshard_visitor_distribution (rs : List ReadResponse) :
    Option DistributionReadResponse := do
  let ps ← extractDistributions rs
  let st := ps.foldl distScanStep (0, ⟨[]⟩, 0)
  let total := st.1
  let selected := st.2.1
  let total_keys_in_res := st.2.2
  if total_keys_in_res = 0 then pure selected
  else pure ⟨selected.key_counts.map
    (fun kv => (kv.1, Int.tdiv (kv.2 * total) total_keys_in_res))⟩

/-- `multistore_unshard_visitor_t::operator()(const rget_read_t &)`
(protocol.cc 391-556): merge of range-read responses across hash shards. -/
def multistore_unshard_visitor_rget (ev : Evaluator) (rg : RgetRead)
    (rs : List ReadResponse) : Option RgetReadResponse := do
  match ← scanForError rs with
  | some e => pure (mkResp rg (.runtimeError e) false rg.key_range.left)
  | none =>
    match rg.terminal with
    | none => do
      let lck ← mergeLck rg.maximum rs rg.key_range.last_key_in_range
      let (s, t) ← mergeTrimmedStream lck rs [] false
      pure (mkResp rg (.stream s) t lck)
    | some term =>
      match ← mergeTerminal ev rg.scopes term rs with
      | .ok res => pure (mkResp rg res false rg.key_range.left)
      | .error e => pure (mkResp rg (.runtimeError e) false rg.key_range.left)

/-- `read_t::unshard` (protocol.cc 360-363): dispatch on the read variant. -/
def read_unshard (ev : Evaluator) : Read → List ReadResponse →
    Option ReadResponse
  | .point _, rs => unshard_visitor_point rs
  | .rget rg, rs => (unshard_visitor_rget ev rg rs).map ReadResponse.rget
  | .distribution _, rs =>
    (unshard_visitor_distribution rs).map ReadResponse.distribution

/-- `read_t::multistore_unshard` (protocol.cc 614-617). -/
def read_multistore_unshard (ev : Evaluator) : Read → List ReadResponse →
    Option ReadResponse
  | .point _, rs => unshard_visitor_point rs
  | .rget rg, rs =>
    (multistore_unshard_visitor_rget ev rg rs).map ReadResponse.rget
  | .distribution _, rs =>
    (multistore_unshard_visitor_distribution rs).map ReadResponse.distribution

/-- `point_write_t`. -/
structure PointWrite where
  key : Key
  data : Value
deriving DecidableEq, Repr

/-- `point_modify_t` (the fields the shown code reads). -/
structure PointModify where
  key : Key
  primary_key : Key
  op : Term
  mapping : Term
  scopes : Scopes
deriving DecidableEq, Repr

/-- `point_delete_t`. -/
structure PointDelete where
  key : Key
deriving DecidableEq, Repr

/-- `write_t`: the tagged union of the three write variants. -/
inductive Write where
  | pointWrite (pw : PointWrite)
  | pointModify (pm : PointModify)
  | pointDelete (pd : PointDelete)
deriving DecidableEq, Repr

/-- Modelled from the spec: "Writes produce a small variant-specific status";
the unshard code never inspects it, so each variant carries an opaque
status number. -/
inductive WriteResponse where
  | pointWrite (status : Nat)
  | pointModify (status : Nat)
  | pointDelete (status : Nat)
deriving DecidableEq, Repr

/-- `write_t::get_region` via `w_get_region_visitor` (protocol.cc 624-642). -/
def write_get_region (hasher : Key → Nat) : Write → Region
  | .pointWrite pw => monokey_region hasher pw.key
  | .pointModify pm => monokey_region hasher pm.key
  | .pointDelete pd => monokey_region hasher pd.key

/-- `write_t::shard` via `w_shard_visitor` (protocol.cc 648-672): every write
variant is returned unchanged (the region equality is a debug assert). -/
def write_shard : Write → Region → Write
  | .pointWrite pw, _ => .pointWrite pw
  | .pointModify pm, _ => .pointModify pm
  | .pointDelete pd, _ => .pointDelete pd

/-- `write_t::unshard` (protocol.cc 674-677): the size-1 requirement is a
debug assert; the code returns `responses[0]`, a crash (`none`) on an empty
vector. -/
def write_unshard (_w : Write) (rs : List WriteResponse) :
    Option WriteResponse :=
  rs.head?

/-- `write_t::multistore_unshard` (protocol.cc 679-681): delegates to
`unshard`. -/
def write_multistore_unshard (w : Write) (rs : List WriteResponse) :
    Option WriteResponse :=
  write_unshard w rs

/-- The stream a piece carries (meaningful when the piece's result holds the
stream variant). -/
def streamOf (p : RgetReadResponse) : stream_t := (getStream p.result).getD []

/-- The merged last-considered key as the specification describes it: the
minimum of the per-shard `last_considered_key`s over exactly those pieces
whose stream size equals the request's `maximum`, starting from the request
key range's upper bound. -/
def specMergedLck (rg : RgetRead) (ps : List RgetReadResponse) : Key :=
  ((ps.filter (fun p => decide ((streamOf p).length = rg.maximum))).map
    (fun p => p.last_considered_key)).foldl min rg.key_range.last_key_in_range

/-! ### Concrete inputs used by witnesses and counterexamples -/

/-- A trivial external evaluator: every term evaluates to `0`. -/
def evZero : Evaluator := fun _ _ => .ok 0

/-- A sample key range `[[0], [200]]`. -/
def krEx : KeyRange := ⟨[0], [200]⟩

/-- A sample hasher. -/
def hasherEx : Key → Nat := fun k => k.foldl (· + ·) 0

/-- A range read with a `Length` terminal, page size 10. -/
def rgLenEx : RgetRead := ⟨krEx, 10, [], some .length, []⟩

/-- Two shard responses carrying `length_t` results 3 and 4. -/
def rsLenEx : List ReadResponse :=
  [.rget ⟨.length 3, false, krEx, [10]⟩, .rget ⟨.length 4, false, krEx, [20]⟩]

/-- A range read with no terminal and `maximum = 0`. -/
def rgMax0Ex : RgetRead := ⟨krEx, 0, [], none, []⟩

/-- One shard response with an empty stream and a low last-considered key. -/
def rsEmptyStreamEx : List RgetReadResponse := [⟨.stream [], false, krEx, [5]⟩]

/-- A range read with no terminal and `maximum = 1`. -/
def rgMax1Ex : RgetRead := ⟨krEx, 1, [], none, []⟩

/-- Two shard responses with streams for the no-terminal merge: the first is a
full page (size 1), the second is short. -/
def rsStreamsEx : List RgetReadResponse :=
  [⟨.stream [([7], 1)], false, krEx, [7]⟩,
   ⟨.stream [], false, krEx, [3]⟩]

/-- A sample runtime error. -/
def excEx : RuntimeExc := ⟨"boom", ["bt"]⟩

/-- Shard responses whose second piece carries a runtime error. -/
def rsErrEx : List RgetReadResponse :=
  [⟨.stream [([1], 5)], false, krEx, [10]⟩,
   ⟨.runtimeError excEx, true, krEx, [20]⟩]

/-- The spec's worked distribution example, piece 1: `{a:10, b:10, c:10}`. -/
def distPiece1 : DistributionReadResponse := ⟨[([97], 10), ([98], 10), ([99], 10)]⟩

/-- The spec's worked distribution example, piece 2: `{a:40, b:60}`. -/
def distPiece2 : DistributionReadResponse := ⟨[([97], 40), ([98], 60)]⟩

/-- A sample write and a sample write response. -/
def writeEx : Write := .pointDelete ⟨[1, 2]⟩

/-- A sample write response. -/
def writeRespEx : WriteResponse := .pointDelete 0

/-! ### Theorems -/

/-- **C5.** For every read `r` (point, range, or distribution read) and every
hash function, sharding `r` by its own declared region is the identity:
`read_shard r (read_get_region hasher r) = r`. -/
theorem claim5_shard_self_region_identity (hasher : Key → Nat) (r : Read) :
    read_shard r (read_get_region hasher r) = r := by
  cases r <;> rfl

/-- Witness for C5 at a concrete read. -/
theorem claim5_shard_self_region_identity_witness :
    read_shard (.rget rgLenEx) (read_get_region hasherEx (.rget rgLenEx))
      = .rget rgLenEx :=
  claim5_shard_self_region_identity hasherEx (.rget rgLenEx)

/-- **C10.** `write_t::multistore_unshard` behaves identically to
`write_t::unshard` for every write variant and response vector, and on a
one-element vector both return that element unchanged. -/
theorem claim10_write_multistore_unshard_eq_unshard (w : Write)
    (rs : List WriteResponse) :
    write_multistore_unshard w rs = write_unshard w rs ∧
    (∀ r : WriteResponse, rs = [r] → write_unshard w rs = some r) := by
  constructor
  · rfl
  · intro r h
    subst h
    rfl

/-- Witness for C10 at a concrete write and a singleton response vector. -/
theorem claim10_write_multistore_unshard_eq_unshard_witness :
    write_multistore_unshard writeEx [writeRespEx]
        = write_unshard writeEx [writeRespEx] ∧
      write_unshard writeEx [writeRespEx] = some writeRespEx := by
  have h := claim10_write_multistore_unshard_eq_unshard writeEx [writeRespEx]
  exact ⟨h.1, h.2 writeRespEx rfl⟩

/-- **C3 (code bug).** At the failing input — a `RangeRead` with a `Length`
terminal over pieces with `length = 3` and `length = 4` — both the
single-store and the multistore unshard crash instead of producing the merged
`Length 7`: the code stores `atom_t()` into the result and then dereferences
the null pointer returned by `boost::get<length_t>` on it (protocol.cc
291-293 and 525-527). -/
theorem claim3_length_branch_crashes :
    unshard_visitor_rget evZero rgLenEx rsLenEx = none ∧
      multistore_unshard_visitor_rget evZero rgLenEx rsLenEx = none := by
  constructor <;> rfl

/-- `cpu_sharding_subspace` with its `let`s expanded. -/
theorem cpu_sharding_subspace_eq (i n : Nat) :
    cpu_sharding_subspace i n =
      ⟨HASH_REGION_HASH_SIZE / n * i,
       if i + 1 = n then HASH_REGION_HASH_SIZE
       else HASH_REGION_HASH_SIZE / n * i + HASH_REGION_HASH_SIZE / n,
       KeyRange.universe⟩ := rfl

/-- **C9.** For every `n ≥ 1`, the regions `cpu_sharding_subspace 0 n` through
`cpu_sharding_subspace (n-1) n` have pairwise-disjoint hash intervals whose
union is exactly `[0, HASH_REGION_HASH_SIZE)`, each carries the universal key
range, every subspace except possibly the last has width
`HASH_REGION_HASH_SIZE / n`, and the last one ends exactly at
`HASH_REGION_HASH_SIZE` (absorbing the division remainder). -/
theorem claim9_cpu_sharding_partition (n : Nat) (hn : 1 ≤ n) :
    (∀ i j h, i < j → j < n → (cpu_sharding_subspace i n).memHash h →
      ¬ (cpu_sharding_subspace j n).memHash h) ∧
    (∀ h, h < HASH_REGION_HASH_SIZE ↔
      ∃ i, i < n ∧ (cpu_sharding_subspace i n).memHash h) ∧
    (∀ i, i < n → (cpu_sharding_subspace i n).inner = KeyRange.universe) ∧
    (∀ i, i + 1 < n →
      (cpu_sharding_subspace i n).end_ - (cpu_sharding_subspace i n).beg
        = HASH_REGION_HASH_SIZE / n) ∧
    (cpu_sharding_subspace (n - 1) n).end_ = HASH_REGION_HASH_SIZE := by
  have hS : HASH_REGION_HASH_SIZE / n * n ≤ HASH_REGION_HASH_SIZE :=
    Nat.div_mul_le_self _ _
  refine ⟨?_, ?_, ?_, ?_, ?_⟩
  · intro i j h hij hjn hmi hmj
    rw [cpu_sharding_subspace_eq] at hmi hmj
    simp only [Region.memHash] at hmi hmj
    obtain ⟨hbi, hei⟩ := hmi
    obtain ⟨hbj, _⟩ := hmj
    rw [if_neg (by omega : ¬ i + 1 = n)] at hei
    have h1 : HASH_REGION_HASH_SIZE / n * (i + 1)
        ≤ HASH_REGION_HASH_SIZE / n * j :=
      Nat.mul_le_mul_left _ (by omega)
    have h2 : HASH_REGION_HASH_SIZE / n * (i + 1)
        = HASH_REGION_HASH_SIZE / n * i + HASH_REGION_HASH_SIZE / n :=
      Nat.mul_succ _ _
    omega
  · intro h
    constructor
    · intro hh
      by_cases hw : HASH_REGION_HASH_SIZE / n = 0
      · refine ⟨n - 1, by omega, ?_⟩
        rw [cpu_sharding_subspace_eq]
        simp only [Region.memHash]
        rw [if_pos (by omega : n - 1 + 1 = n)]
        exact ⟨by simp [hw], hh⟩
      · have hw0 : 0 < HASH_REGION_HASH_SIZE / n := Nat.pos_of_ne_zero hw
        have hdm := Nat.div_add_mod h (HASH_REGION_HASH_SIZE / n)
        have hmlt := Nat.mod_lt h hw0
        by_cases hq : h / (HASH_REGION_HASH_SIZE / n) + 1 < n
        · refine ⟨h / (HASH_REGION_HASH_SIZE / n), by omega, ?_⟩
          rw [cpu_sharding_subspace_eq]
          simp only [Region.memHash]
          rw [if_neg (by omega)]
          omega
        · refine ⟨n - 1, by omega, ?_⟩
          rw [cpu_sharding_subspace_eq]
          simp only [Region.memHash]
          rw [if_pos (by omega : n - 1 + 1 = n)]
          have h1 : HASH_REGION_HASH_SIZE / n * (n - 1)
              ≤ HASH_REGION_HASH_SIZE / n * (h / (HASH_REGION_HASH_SIZE / n)) :=
            Nat.mul_le_mul_left _ (by omega)
          omega
    · rintro ⟨i, hin, hmem⟩
      rw [cpu_sharding_subspace_eq] at hmem
      simp only [Region.memHash] at hmem
      by_cases hi : i + 1 = n
      · rw [if_pos hi] at hmem
        exact hmem.2
      · rw [if_neg hi] at hmem
        have h1 : HASH_REGION_HASH_SIZE / n * (i + 1)
            ≤ HASH_REGION_HASH_SIZE / n * n :=
          Nat.mul_le_mul_left _ (by omega)
        have h2 : HASH_REGION_HASH_SIZE / n * (i + 1)
            = HASH_REGION_HASH_SIZE / n * i + HASH_REGION_HASH_SIZE / n :=
          Nat.mul_succ _ _
        omega
  · intro i _
    rw [cpu_sharding_subspace_eq]
  · intro i hi
    rw [cpu_sharding_subspace_eq]
    simp only
    rw [if_neg (by omega : ¬ i + 1 = n)]
    generalize HASH_REGION_HASH_SIZE / n = w
    omega
  · rw [cpu_sharding_subspace_eq]
    simp only
    rw [if_pos (by omega : n - 1 + 1 = n)]

/-- Witness for C9 at `n = 2`. -/
theorem claim9_cpu_sharding_partition_witness :
    1 ≤ 2 ∧
    ((∀ i j h, i < j → j < 2 → (cpu_sharding_subspace i 2).memHash h →
        ¬ (cpu_sharding_subspace j 2).memHash h) ∧
      (∀ h, h < HASH_REGION_HASH_SIZE ↔
        ∃ i, i < 2 ∧ (cpu_sharding_subspace i 2).memHash h) ∧
      (∀ i, i < 2 → (cpu_sharding_subspace i 2).inner = KeyRange.universe) ∧
      (∀ i, i + 1 < 2 →
        (cpu_sharding_subspace i 2).end_ - (cpu_sharding_subspace i 2).beg
          = HASH_REGION_HASH_SIZE / 2) ∧
      (cpu_sharding_subspace (2 - 1) 2).end_ = HASH_REGION_HASH_SIZE) :=
  ⟨by omega, claim9_cpu_sharding_partition 2 (by omega)⟩

/-- The error-scan loop over well-typed pieces finds exactly the first
`runtime_exc_t` result, in piece order. -/
theorem scanForError_map_rget (ps : List RgetReadResponse) :
    scanForError (ps.map ReadResponse.rget)
      = some (ps.findSome? (fun p => getError p.result)) := by
  induction ps with
  | nil => rfl
  | cons p rest ih =>
    simp only [List.map_cons, scanForError, asRget, List.findSome?_cons]
    cases hre : getError p.result with
    | some e => rfl
    | none => exact ih

/-- **C6.** For any unshard of a `RangeRead` — single-store or multistore —
if at least one piece's result is a `runtime_exc_t` then the merged result is
the first such error in piece order, whatever the other pieces hold and
whatever the terminal is. -/
theorem claim6_runtime_error_propagates (ev : Evaluator) (rg : RgetRead)
    (ps : List RgetReadResponse) (e : RuntimeExc)
    (hfe : ps.findSome? (fun p => getError p.result) = some e) :
    unshard_visitor_rget ev rg (ps.map ReadResponse.rget)
        = some (mkResp rg (.runtimeError e) false rg.key_range.left) ∧
      multistore_unshard_visitor_rget ev rg (ps.map ReadResponse.rget)
        = some (mkResp rg (.runtimeError e) false rg.key_range.left) := by
  constructor <;>
    simp [unshard_visitor_rget, multistore_unshard_visitor_rget,
      scanForError_map_rget, hfe]

/-- Witness for C6: one piece holds a stream, the second throws. -/
theorem claim6_runtime_error_propagates_witness :
    rsErrEx.findSome? (fun p => getError p.result) = some excEx ∧
    unshard_visitor_rget evZero rgMax0Ex (rsErrEx.map ReadResponse.rget)
        = some (mkResp rgMax0Ex (.runtimeError excEx) false
            rgMax0Ex.key_range.left) ∧
      multistore_unshard_visitor_rget evZero rgMax0Ex
          (rsErrEx.map ReadResponse.rget)
        = some (mkResp rgMax0Ex (.runtimeError excEx) false
            rgMax0Ex.key_range.left) := by
  have h := claim6_runtime_error_propagates evZero rgMax0Ex rsErrEx excEx rfl
  exact ⟨rfl, h.1, h.2⟩

/-- A piece holding a stream result carries no `runtime_exc_t`, so the error
scan over all-stream pieces finds nothing. -/
theorem scanForError_of_streams (ps : List RgetReadResponse)
    (hs : ∀ p ∈ ps, (getStream p.result).isSome) :
    scanForError (ps.map ReadResponse.rget) = some none := by
  rw [scanForError_map_rget]
  congr 1
  induction ps with
  | nil => rfl
  | cons p rest ih =>
    have hp := hs p (by simp)
    have hnone : getError p.result = none := by
      cases h : p.result <;> first
        | rfl
        | (rw [h] at hp; simp [getStream] at hp)
    rw [List.findSome?_cons, hnone]
    exact ih (fun q hq => hs q (by simp [hq]))

/-- Running the multistore last-considered-key loop over well-typed stream
pieces computes the structural left fold of the pointwise update. -/
theorem mergeLck_run (m : Nat) (ps : List RgetReadResponse) (acc : Key)
    (hs : ∀ p ∈ ps, (getStream p.result).isSome) :
    mergeLck m (ps.map ReadResponse.rget) acc
      = some (ps.foldl (fun a p =>
          if (streamOf p).length = m then
            (if p.last_considered_key < a then p.last_considered_key else a)
          else a) acc) := by
  induction ps generalizing acc with
  | nil => rfl
  | cons p rest ih =>
    have hp := hs p (by simp)
    obtain ⟨s, hsome⟩ := Option.isSome_iff_exists.mp hp
    have hstream : streamOf p = s := by simp [streamOf, hsome]
    simp only [List.map_cons, mergeLck, asRget, Option.bind_eq_bind,
      Option.some_bind, hsome, List.foldl_cons, hstream]
    exact ih _ (fun q hq => hs q (by simp [hq]))

/-- `if b < a then b else a` is `min a b`. -/
theorem if_lt_eq_min (a b : Key) : (if b < a then b else a) = min a b := by
  rw [min_def]
  by_cases h : b < a
  · rw [if_pos h, if_neg (not_le.mpr h)]
  · rw [if_neg h, if_pos (not_lt.mp h)]

/-- The conditional-update fold equals the fold of `min` over the
full-page pieces' last-considered keys. -/
theorem lckFold_eq_filter_min (m : Nat) (ps : List RgetReadResponse)
    (acc : Key) :
    ps.foldl (fun a p =>
        if (streamOf p).length = m then
          (if p.last_considered_key < a then p.last_considered_key else a)
        else a) acc
      = ((ps.filter (fun p => decide ((streamOf p).length = m))).map
          (fun p => p.last_considered_key)).foldl min acc := by
  induction ps generalizing acc with
  | nil => rfl
  | cons p rest ih =>
    rw [List.foldl_cons, List.filter_cons]
    by_cases hlen : (streamOf p).length = m
    · rw [if_pos (by simp [hlen] : decide ((streamOf p).length = m) = true),
        List.map_cons, List.foldl_cons, if_pos hlen, if_lt_eq_min]
      exact ih _
    · rw [if_neg (by simp [hlen] : ¬ decide ((streamOf p).length = m) = true),
        if_neg hlen]
      exact ih _

/-- Running the multistore emit loop over well-typed stream pieces computes
the structural left fold of append-after-trim along with the OR of the
truncated flags. -/
theorem mergeTrimmedStream_run (lck : Key) (ps : List RgetReadResponse)
    (acc : stream_t) (t : Bool)
    (hs : ∀ p ∈ ps, (getStream p.result).isSome) :
    mergeTrimmedStream lck (ps.map ReadResponse.rget) acc t
      = some (ps.foldl (fun a p =>
            a ++ (streamOf p).filter (fun kv => decide (kv.1 ≤ lck))) acc,
          ps.foldl (fun a p => a || p.truncated) t) := by
  induction ps generalizing acc t with
  | nil => rfl
  | cons p rest ih =>
    have hp := hs p (by simp)
    obtain ⟨s, hsome⟩ := Option.isSome_iff_exists.mp hp
    have hstream : streamOf p = s := by simp [streamOf, hsome]
    simp only [List.map_cons, mergeTrimmedStream, asRget, Option.bind_eq_bind,
      Option.some_bind, hsome, List.foldl_cons, hstream]
    exact ih _ _ (fun q hq => hs q (by simp [hq]))

/-- Full characterisation of the multistore no-terminal merge over well-typed
stream pieces: the merged last-considered key is `specMergedLck`, the stream
is the concatenation of the per-piece streams trimmed to it, and `truncated`
is the OR of the pieces' flags. -/
theorem multistore_noterminal_run (ev : Evaluator) (rg : RgetRead)
    (ps : List RgetReadResponse) (hterm : rg.terminal = none)
    (hs : ∀ p ∈ ps, (getStream p.result).isSome) :
    multistore_unshard_visitor_rget ev rg (ps.map ReadResponse.rget)
      = some (mkResp rg
          (.stream (ps.foldl (fun a p =>
            a ++ (streamOf p).filter
              (fun kv => decide (kv.1 ≤ specMergedLck rg ps))) []))
          (ps.foldl (fun a p => a || p.truncated) false)
          (specMergedLck rg ps)) := by
  have hlck : mergeLck rg.maximum (ps.map ReadResponse.rget)
      rg.key_range.last_key_in_range = some (specMergedLck rg ps) := by
    rw [mergeLck_run _ _ _ hs, lckFold_eq_filter_min]
    rfl
  simp only [multistore_unshard_visitor_rget, scanForError_of_streams ps hs,
    Option.bind_eq_bind, Option.some_bind, hterm, hlck,
    mergeTrimmedStream_run _ _ _ _ hs, Option.pure_def]

/-- **C1.** Multistore unshard of a no-terminal `RangeRead` over stream
pieces: the merged `last_considered_key` is the minimum — starting from the
request range's upper bound — of the `last_considered_key`s of exactly those
pieces whose stream size equals the request's `maximum` (so pieces with fewer
than `maximum` elements never lower it). -/
theorem claim1_multistore_lck_min (ev : Evaluator) (rg : RgetRead)
    (ps : List RgetReadResponse) (hterm : rg.terminal = none)
    (hs : ∀ p ∈ ps, (getStream p.result).isSome) :
    ∃ resp, multistore_unshard_visitor_rget ev rg (ps.map ReadResponse.rget)
        = some resp ∧
      resp.last_considered_key = specMergedLck rg ps :=
  ⟨_, multistore_noterminal_run ev rg ps hterm hs, rfl⟩

/-- Witness for C1: a full page of size 1 with key `[7]` and a short page;
only the full page lowers the watermark. -/
theorem claim1_multistore_lck_min_witness :
    rgMax1Ex.terminal = none ∧
    (∀ p ∈ rsStreamsEx, (getStream p.result).isSome) ∧
    ∃ resp, multistore_unshard_visitor_rget evZero rgMax1Ex
        (rsStreamsEx.map ReadResponse.rget) = some resp ∧
      resp.last_considered_key = specMergedLck rgMax1Ex rsStreamsEx :=
  ⟨rfl, by decide,
    claim1_multistore_lck_min evZero rgMax1Ex rsStreamsEx rfl (by decide)⟩

/-- Every element of the trim-and-append fold is bounded by the merged
last-considered key. -/
theorem mem_trimfold_le (lck : Key) (ps : List RgetReadResponse)
    (acc : stream_t) (hacc : ∀ kv ∈ acc, kv.1 ≤ lck) :
    ∀ kv ∈ ps.foldl (fun a p =>
        a ++ (streamOf p).filter (fun kv => decide (kv.1 ≤ lck))) acc,
      kv.1 ≤ lck := by
  induction ps generalizing acc with
  | nil => exact hacc
  | cons p rest ih =>
    rw [List.foldl_cons]
    apply ih
    intro kv hkv
    rcases List.mem_append.mp hkv with h | h
    · exact hacc kv h
    · exact of_decide_eq_true (List.mem_filter.mp h).2

/-- **C4.** In the multistore unshard of a no-terminal `RangeRead`, every
`(key, value)` pair of the merged stream has key at most the merged
`last_considered_key`; pairs with larger keys are filtered out. -/
theorem claim4_stream_trimmed (ev : Evaluator) (rg : RgetRead)
    (ps : List RgetReadResponse) (hterm : rg.terminal = none)
    (hs : ∀ p ∈ ps, (getStream p.result).isSome) :
    ∀ resp s, multistore_unshard_visitor_rget ev rg
        (ps.map ReadResponse.rget) = some resp →
      resp.result = RgetResult.stream s →
      ∀ kv ∈ s, kv.1 ≤ resp.last_considered_key := by
  intro resp s hresp hstream kv hkv
  rw [multistore_noterminal_run ev rg ps hterm hs, Option.some_inj] at hresp
  subst hresp
  simp only [mkResp, RgetResult.stream.injEq] at hstream
  subst hstream
  exact mem_trimfold_le _ ps [] (by intro kv h; cases h) kv hkv

/-- Witness for C4 at the concrete pieces of the C1 witness. -/
theorem claim4_stream_trimmed_witness :
    (∀ p ∈ rsStreamsEx, (getStream p.result).isSome) ∧
    (∀ resp s, multistore_unshard_visitor_rget evZero rgMax1Ex
        (rsStreamsEx.map ReadResponse.rget) = some resp →
      resp.result = RgetResult.stream s →
      ∀ kv ∈ s, kv.1 ≤ resp.last_considered_key) :=
  ⟨by decide,
    claim4_stream_trimmed evZero rgMax1Ex rsStreamsEx rfl (by decide)⟩

/-- **C8, counterexample.** With `maximum = 0`, a piece with an empty stream
satisfies `stream.size() == maximum` and therefore lowers the merged
`last_considered_key` below the range's upper bound: here the merged key is
`[5]`, not the upper bound `[200]` the claim requires. -/
theorem claim8_counterexample :
    (multistore_unshard_visitor_rget evZero rgMax0Ex
        (rsEmptyStreamEx.map ReadResponse.rget)).map
      (fun r => r.last_considered_key) = some [5] ∧
    ([5] : Key) ≠ rgMax0Ex.key_range.last_key_in_range :=
  ⟨rfl, by decide⟩

/-- **C8, amended.** For a multistore unshard of a no-terminal `RangeRead`
with `maximum = 0`, the merged `last_considered_key` equals the minimum,
starting from the range's upper bound, of the `last_considered_key`s of the
pieces with **empty** streams (an empty stream counts as a full page of size
0); it equals the upper bound only when no piece's stream is empty. -/
theorem claim8_amended_max0 (ev : Evaluator) (rg : RgetRead)
    (ps : List RgetReadResponse) (hmax : rg.maximum = 0)
    (hterm : rg.terminal = none)
    (hs : ∀ p ∈ ps, (getStream p.result).isSome) :
    ∃ resp, multistore_unshard_visitor_rget ev rg (ps.map ReadResponse.rget)
        = some resp ∧
      resp.last_considered_key
        = ((ps.filter (fun p => (streamOf p).isEmpty)).map
            (fun p => p.last_considered_key)).foldl min
            rg.key_range.last_key_in_range := by
  refine ⟨_, multistore_noterminal_run ev rg ps hterm hs, ?_⟩
  show specMergedLck rg ps = _
  unfold specMergedLck
  rw [hmax]
  congr 2
  apply List.filter_congr
  intro p _
  cases streamOf p <;> simp

/-- Witness for C8's amended claim: the empty-stream piece with
last-considered key `[5]` sets the merged watermark. -/
theorem claim8_amended_max0_witness :
    rgMax0Ex.maximum = 0 ∧ rgMax0Ex.terminal = none ∧
    (∀ p ∈ rsEmptyStreamEx, (getStream p.result).isSome) ∧
    ∃ resp, multistore_unshard_visitor_rget evZero rgMax0Ex
        (rsEmptyStreamEx.map ReadResponse.rget) = some resp ∧
      resp.last_considered_key
        = ((rsEmptyStreamEx.filter (fun p => (streamOf p).isEmpty)).map
            (fun p => p.last_considered_key)).foldl min
            rgMax0Ex.key_range.last_key_in_range :=
  ⟨rfl, rfl, by decide,
    claim8_amended_max0 evZero rgMax0Ex rsEmptyStreamEx rfl rfl (by decide)⟩

/-- Extracting distribution pieces from well-typed responses succeeds. -/
theorem extractDistributions_map (ps : List DistributionReadResponse) :
    extractDistributions (ps.map ReadResponse.distribution) = some ps := by
  induction ps with
  | nil => rfl
  | cons p rest ih =>
    simp only [List.map_cons, extractDistributions, asDistribution,
      Option.bind_eq_bind, Option.some_bind, ih, Option.pure_def]

/-- Folding `+ count` over a map with nonnegative counts never decreases the
accumulator. -/
theorem foldl_add_counts_ge (m : KeyCounts) :
    ∀ a : Int, (∀ kv ∈ m, 0 ≤ kv.2) → a ≤ m.foldl (fun x kv => x + kv.2) a := by
  induction m with
  | nil => intro a _; exact le_refl a
  | cons kv rest ih =>
    intro a h
    rw [List.foldl_cons]
    have h1 : 0 ≤ kv.2 := h kv (by simp)
    have h2 := ih (a + kv.2) (fun q hq => h q (by simp [hq]))
    omega

/-- A map of nonnegative counts has a nonnegative sum. -/
theorem sumCounts_nonneg (m : KeyCounts) (h : ∀ kv ∈ m, 0 ≤ kv.2) :
    0 ≤ sumCounts m :=
  foldl_add_counts_ge m 0 h

/-- Characterisation of the multistore distribution scan: starting from a
selected response whose recorded sum is its actual count sum, the final total
is the initial total plus all pieces' count sums, the recorded sum is the
selected response's count sum, and the selected response is either the
initial one (when no piece is strictly larger) or the first piece whose
`key_counts` is strictly larger than everything before it and at least as
large as everything after it. -/
theorem distScan_characterize (ps : List DistributionReadResponse)
    (t0 : Int) (sel0 : DistributionReadResponse) :
    ∃ t sel s,
      ps.foldl distScanStep (t0, sel0, sumCounts sel0.key_counts)
          = (t, sel, s) ∧
      t = t0 + (ps.map (fun p => sumCounts p.key_counts)).sum ∧
      s = sumCounts sel.key_counts ∧
      ((sel = sel0 ∧
          ∀ q ∈ ps, q.key_counts.length ≤ sel0.key_counts.length) ∨
        ∃ l1 l2, ps = l1 ++ sel :: l2 ∧
          sel0.key_counts.length < sel.key_counts.length ∧
          (∀ q ∈ l1, q.key_counts.length < sel.key_counts.length) ∧
          (∀ q ∈ l2, q.key_counts.length ≤ sel.key_counts.length)) := by
  induction ps generalizing t0 sel0 with
  | nil =>
    exact ⟨t0, sel0, sumCounts sel0.key_counts, rfl, by simp, rfl,
      .inl ⟨rfl, by simp⟩⟩
  | cons p rest ih =>
    rw [List.foldl_cons]
    by_cases hlt : sel0.key_counts.length < p.key_counts.length
    · have hstep : distScanStep (t0, sel0, sumCounts sel0.key_counts) p
          = (t0 + sumCounts p.key_counts, p, sumCounts p.key_counts) := by
        simp [distScanStep, hlt]
      rw [hstep]
      obtain ⟨t, sel, s, hfold, ht, hss, hcase⟩ :=
        ih (t0 + sumCounts p.key_counts) p
      refine ⟨t, sel, s, hfold, ?_, hss, ?_⟩
      · rw [ht]
        simp only [List.map_cons, List.sum_cons]
        omega
      · rcases hcase with ⟨hsel, hall⟩ | ⟨l1, l2, hsplit, hlen, hl1, hl2⟩
        · subst hsel
          exact .inr ⟨[], rest, by simp, hlt, by simp, hall⟩
        · refine .inr ⟨p :: l1, l2, by rw [hsplit]; rfl, lt_trans hlt hlen, ?_, hl2⟩
          intro q hq
          rcases List.mem_cons.mp hq with h | h
          · subst h; exact hlen
          · exact hl1 q h
    · have hle : p.key_counts.length ≤ sel0.key_counts.length := not_lt.mp hlt
      have hstep : distScanStep (t0, sel0, sumCounts sel0.key_counts) p
          = (t0 + sumCounts p.key_counts, sel0, sumCounts sel0.key_counts) := by
        simp [distScanStep, hlt]
      rw [hstep]
      obtain ⟨t, sel, s, hfold, ht, hss, hcase⟩ :=
        ih (t0 + sumCounts p.key_counts) sel0
      refine ⟨t, sel, s, hfold, ?_, hss, ?_⟩
      · rw [ht]
        simp only [List.map_cons, List.sum_cons]
        omega
      · rcases hcase with ⟨hsel, hall⟩ | ⟨l1, l2, hsplit, hlen, hl1, hl2⟩
        · refine .inl ⟨hsel, ?_⟩
          intro q hq
          rcases List.mem_cons.mp hq with h | h
          · subst h; exact hle
          · exact hall q h
        · refine .inr ⟨p :: l1, l2, by rw [hsplit]; rfl, hlen, ?_, hl2⟩
          intro q hq
          rcases List.mem_cons.mp hq with h | h
          · subst h; exact lt_of_le_of_lt hle hlen
          · exact hl1 q h

/-- **C2, counterexample.** On the spec's own worked example — piece 1 with
counts `{a:10, b:10, c:10}` and piece 2 with counts `{a:40, b:60}` — the code
selects piece 1 (the piece with **more** keys, not fewer) and scales it by
`130/30`, producing `{a:43, b:43, c:43}`; the claim predicts `{a:52, b:78}`. -/
theorem claim2_counterexample :
    multistore_unshard_visitor_distribution
        [ReadResponse.distribution distPiece1, ReadResponse.distribution distPiece2]
      = some ⟨[([97], 43), ([98], 43), ([99], 43)]⟩ ∧
    some (⟨[([97], 43), ([98], 43), ([99], 43)]⟩ : DistributionReadResponse)
      ≠ some (⟨[([97], 52), ([98], 78)]⟩ : DistributionReadResponse) :=
  ⟨rfl, by decide⟩

/-- **C2, amended.** The multistore distribution merge over at least two
pieces selects the piece with the **largest** `|key_counts|` (the first such
piece in order: strictly larger than everything before it, at least as large
as everything after).  If the selected piece's count sum is 0 it is returned
verbatim; otherwise each of its counts is multiplied by
`total_num_keys / total_keys_in_res` (exact rational arithmetic truncated
toward zero, standing for the code's double multiply-and-cast), where
`total_num_keys` is the sum of all counts across all pieces. -/
theorem claim2_amended_select_largest (ps : List DistributionReadResponse)
    (h2 : 2 ≤ ps.length) :
    ∃ sel l1 l2,
      ps = l1 ++ sel :: l2 ∧
      (∀ q ∈ l1, q.key_counts.length < sel.key_counts.length) ∧
      (∀ q ∈ l2, q.key_counts.length ≤ sel.key_counts.length) ∧
      multistore_unshard_visitor_distribution
          (ps.map ReadResponse.distribution)
        = some (if sumCounts sel.key_counts = 0 then sel
            else ⟨sel.key_counts.map (fun kv =>
              (kv.1, Int.tdiv
                (kv.2 * (ps.map (fun p => sumCounts p.key_counts)).sum)
                (sumCounts sel.key_counts)))⟩) := by
  obtain ⟨t, sel, s, hfold, ht, hss, hcase⟩ := distScan_characterize ps 0 ⟨[]⟩
  have hfold2 : ps.foldl distScanStep (0, ⟨[]⟩, 0) = (t, sel, s) := hfold
  have htsum : t = (ps.map (fun p => sumCounts p.key_counts)).sum := by
    rw [ht]; omega
  have hrun : multistore_unshard_visitor_distribution
      (ps.map ReadResponse.distribution)
      = if s = 0 then some sel
        else some ⟨sel.key_counts.map
          (fun kv => (kv.1, Int.tdiv (kv.2 * t) s))⟩ := by
    simp only [multistore_unshard_visitor_distribution, extractDistributions_map,
      Option.bind_eq_bind, Option.some_bind, hfold2, Option.pure_def]
  rcases hcase with ⟨hsel, hall⟩ | ⟨l1, l2, hsplit, _, hl1, hl2⟩
  · -- every piece has an empty key_counts map
    have hempty : ∀ q ∈ ps, q = (⟨[]⟩ : DistributionReadResponse) := by
      intro q hq
      have := hall q hq
      have hz : q.key_counts = [] := by
        cases hqc : q.key_counts with
        | nil => rfl
        | cons a l => rw [hqc] at this; simp at this
      cases q
      simp_all
    cases ps with
    | nil => simp at h2
    | cons q rest =>
      have hq0 : q = (⟨[]⟩ : DistributionReadResponse) :=
        hempty q (by simp)
      subst hq0
      refine ⟨⟨[]⟩, [], rest, rfl, by simp, ?_, ?_⟩
      · intro q' hq'
        have := hempty q' (by simp [hq'])
        rw [this]
      · rw [hrun]
        have hs0 : s = 0 := by rw [hss, hsel]; rfl
        rw [if_pos hs0, if_pos (by rfl : sumCounts
          (⟨[]⟩ : DistributionReadResponse).key_counts = 0), hsel]
  · refine ⟨sel, l1, l2, hsplit, hl1, hl2, ?_⟩
    rw [hrun, ← hss, ← htsum]
    exact (apply_ite some _ _ _).symm

/-- Witness for C2's amended claim at the spec's worked example. -/
theorem claim2_amended_select_largest_witness :
    2 ≤ ([distPiece1, distPiece2] : List DistributionReadResponse).length ∧
    ∃ sel l1 l2,
      [distPiece1, distPiece2] = l1 ++ sel :: l2 ∧
      (∀ q ∈ l1, q.key_counts.length < sel.key_counts.length) ∧
      (∀ q ∈ l2, q.key_counts.length ≤ sel.key_counts.length) ∧
      multistore_unshard_visitor_distribution
          (([distPiece1, distPiece2] : List DistributionReadResponse).map
            ReadResponse.distribution)
        = some (if sumCounts sel.key_counts = 0 then sel
            else ⟨sel.key_counts.map (fun kv =>
              (kv.1, Int.tdiv
                (kv.2 * (([distPiece1, distPiece2] :
                    List DistributionReadResponse).map
                  (fun p => sumCounts p.key_counts)).sum)
                (sumCounts sel.key_counts)))⟩) :=
  ⟨by decide,
    claim2_amended_select_largest [distPiece1, distPiece2] (by decide)⟩

/-- **C7.** In the multistore distribution merge with nonnegative counts, the
selected piece's count sum (`total_keys_in_res`) never exceeds the grand
total (`total_num_keys`); hence when it is nonzero the scale factor
`total_num_keys / total_keys_in_res` is at least 1 (stated over exact
rationals in place of the code's doubles). -/
theorem claim7_scale_factor_ge_one (ps : List DistributionReadResponse)
    (hpos : ∀ p ∈ ps, ∀ kv ∈ p.key_counts, 0 ≤ kv.2) :
    (ps.foldl distScanStep (0, ⟨[]⟩, 0)).2.2
        ≤ (ps.foldl distScanStep (0, ⟨[]⟩, 0)).1 ∧
      ((ps.foldl distScanStep (0, ⟨[]⟩, 0)).2.2 ≠ 0 →
        (1 : ℚ) ≤ ((ps.foldl distScanStep (0, ⟨[]⟩, 0)).1 : ℚ)
          / ((ps.foldl distScanStep (0, ⟨[]⟩, 0)).2.2 : ℚ)) := by
  obtain ⟨t, sel, s, hfold, ht, hss, hcase⟩ := distScan_characterize ps 0 ⟨[]⟩
  have hfold2 : ps.foldl distScanStep (0, ⟨[]⟩, 0) = (t, sel, s) := hfold
  rw [hfold2]
  show s ≤ t ∧ (s ≠ 0 → (1 : ℚ) ≤ (t : ℚ) / (s : ℚ))
  have hsle : s ≤ t := by
    rcases hcase with ⟨hsel, _⟩ | ⟨l1, l2, hsplit, _, _, _⟩
    · have hs0 : s = 0 := by rw [hss, hsel]; rfl
      have htn : 0 ≤ t := by
        rw [ht]
        have hsum : 0 ≤ (ps.map (fun p => sumCounts p.key_counts)).sum :=
          List.sum_nonneg (by
            intro x hx
            obtain ⟨q, hq, rfl⟩ := List.mem_map.mp hx
            exact sumCounts_nonneg _ (hpos q hq))
        omega
      omega
    · rw [ht, hsplit]
      have h1 : 0 ≤ (l1.map (fun p => sumCounts p.key_counts)).sum :=
        List.sum_nonneg (by
          intro x hx
          obtain ⟨q, hq, rfl⟩ := List.mem_map.mp hx
          exact sumCounts_nonneg _
            (hpos q (by rw [hsplit]; exact List.mem_append_left _ hq)))
      have h2 : 0 ≤ (l2.map (fun p => sumCounts p.key_counts)).sum :=
        List.sum_nonneg (by
          intro x hx
          obtain ⟨q, hq, rfl⟩ := List.mem_map.mp hx
          exact sumCounts_nonneg _
            (hpos q (by
              rw [hsplit]
              exact List.mem_append_right _ (List.mem_cons_of_mem _ hq))))
      simp only [List.map_append, List.sum_append, List.map_cons,
        List.sum_cons]
      omega
  have hs0le : 0 ≤ s := by
    rcases hcase with ⟨hsel, _⟩ | ⟨l1, l2, hsplit, _, _, _⟩
    · have hs0 : s = 0 := by rw [hss, hsel]; rfl
      omega
    · rw [hss]
      exact sumCounts_nonneg _
        (hpos sel (by
          rw [hsplit]
          exact List.mem_append_right _ (List.mem_cons_self _ _)))
  refine ⟨hsle, ?_⟩
  intro hne
  have hq0 : (0 : ℚ) < (s : ℚ) := by
    have hlt : 0 < s := lt_of_le_of_ne hs0le (Ne.symm hne)
    exact_mod_cast hlt
  rw [one_le_div hq0]
  exact_mod_cast hsle

/-- Witness for C7 at the spec's worked distribution example. -/
theorem claim7_scale_factor_ge_one_witness :
    (∀ p ∈ ([distPiece1, distPiece2] : List DistributionReadResponse),
      ∀ kv ∈ p.key_counts, 0 ≤ kv.2) ∧
    ((([distPiece1, distPiece2] : List DistributionReadResponse).foldl
          distScanStep (0, ⟨[]⟩, 0)).2.2
        ≤ (([distPiece1, distPiece2] : List DistributionReadResponse).foldl
          distScanStep (0, ⟨[]⟩, 0)).1 ∧
      ((([distPiece1, distPiece2] : List DistributionReadResponse).foldl
            distScanStep (0, ⟨[]⟩, 0)).2.2 ≠ 0 →
        (1 : ℚ) ≤ ((([distPiece1, distPiece2] :
              List DistributionReadResponse).foldl
            distScanStep (0, ⟨[]⟩, 0)).1 : ℚ)
          / ((([distPiece1, distPiece2] :
              List DistributionReadResponse).foldl
            distScanStep (0, ⟨[]⟩, 0)).2.2 : ℚ))) :=
  ⟨by decide, claim7_scale_factor_ge_one [distPiece1, distPiece2] (by decide)⟩
